import Mathlib

/-!
Shallow embedding of the wavexp sequencer and sound model.

Numeric types: the source's `R64`/`R32` (NaN-free wrappers over the host
floats, totally ordered) are modelled as `ℚ`; machine integers (`u8`, `i8`,
`isize`, `usize`) are modelled as `ℕ`/`ℤ` with the explicit range checks the
source performs.  Host audio-graph nodes (gain nodes, oscillators, buffer
sources, the master compressor) are modelled by integer handles plus the
parameters the source sets on them; fallible host calls are modelled by an
explicit failure-point parameter.  Fallible code returns `Option`.
-/

namespace Wavexp

/-- Rust's derived total-order comparison for the NaN-free reals: the source's
`R64`/`R32` implement `Ord` as the standard order comparison. -/
def ordCmp {α : Type} [LinearOrder α] (a b : α) : Ordering :=
  if a < b then .lt else if b < a then .gt else .eq

/-! ## Pitch primitives: `Note` (packages/wavexp/src/sound/mod.rs)

`Note(u8)` with the invariant `self.0 <= Self::MAX.0`, `MAX = 35`. -/

/-- A pitch index: `pub struct Note(u8)` with invariant `self.0 ≤ 35`. -/
abbrev Note : Type := {n : ℕ // n ≤ 35}

namespace Note

/-- `Note::N_NOTES = 36`. -/
def N_NOTES : ℕ := 36

/-- `Note::MAX = Note(35)`. -/
def MAX : Note := ⟨35, by omega⟩

/-- `Note::MID = Note(N_NOTES / 2) = Note(18)`. -/
def MID : Note := ⟨18, by omega⟩

/-- `Note::new(index) -> Option<Note>`: `Some` iff `index <= MAX.0`. -/
def new (index : ℕ) : Option Note :=
  if h : index ≤ 35 then some ⟨index, h⟩ else none

/-- `Note::saturated(index)`: `new(index)` or `MAX`. -/
def saturated (index : ℕ) : Note := (new index).getD MAX

/-- `Note::index(&self) -> usize`. -/
def index (n : Note) : ℕ := n.val

/-- `Note::FREQS`: the 36-entry frequency table, C2 .. B4, in Hz. -/
def FREQS : List ℚ :=
  [65.410, 69.300, 73.420, 77.780, 82.410,
   87.310, 92.500, 98.000, 103.83, 110.00, 116.54, 123.47,
   130.81, 138.59, 146.83, 155.56, 164.81,
   174.61, 185.00, 196.00, 207.65, 220.00, 233.08, 246.94,
   261.63, 277.18, 293.66, 311.13, 329.63,
   349.23, 369.99, 392.00, 415.30, 440.00, 466.16, 493.88]

/-- `Note::freq(&self)`: `FREQS[self.0]` (the index is always in bounds). -/
def freq (n : Note) : ℚ := FREQS.getD n.val 0

/-- `Note::recip(self) = Note(MAX.0 - self.0)`. -/
def recip (n : Note) : Note := ⟨35 - n.val, by omega⟩

/-- `Note::pitch_coef(&self) = exp2((self.0 as i8 - MID.0 as i8) / 12)`, where
`exp2` is the host float base-2 exponential, kept abstract. -/
def pitch_coef (exp2 : ℚ → ℚ) (n : Note) : ℚ :=
  exp2 (((n.val : ℚ) - 18) / 12)

end Note

/-! ## Machine-integer checked arithmetic used by the `Note` operators -/

/-- `u8::checked_add_signed(a, b)`: `Some` iff the exact sum stays in `0..=255`. -/
def u8_checked_add_signed (a : ℕ) (b : ℤ) : Option ℕ :=
  if 0 ≤ (a : ℤ) + b ∧ (a : ℤ) + b ≤ 255 then some ((a : ℤ) + b).toNat else none

/-- `TryInto::<i8>::try_into(k).ok()` for a wider signed integer `k`. -/
def i8_try_from (k : ℤ) : Option ℤ :=
  if -128 ≤ k ∧ k ≤ 127 then some k else none

/-- `isize::checked_neg(k)`: fails only at the minimum value. -/
def isize_checked_neg (k : ℤ) : Option ℤ :=
  if k = -(2 ^ 63) then none else some (-k)

namespace Note

/-- `impl Add<isize> for Note` (macro `impl_arith`, mode `try_from`):
`Note::new(u8::checked_add_signed(self.0, rhs.try_into().ok()?)?)`. -/
def add (n : Note) (k : ℤ) : Option Note :=
  (i8_try_from k).bind fun k8 =>
    (u8_checked_add_signed n.val k8).bind new

/-- `impl Sub<isize> for Note` (macro `impl_arith`, mode `try_neg_from`):
`Note::new(u8::checked_add_signed(self.0, rhs.checked_neg()?.try_into().ok()?)?)`. -/
def sub (n : Note) (k : ℤ) : Option Note :=
  (isize_checked_neg k).bind fun m =>
    (i8_try_from m).bind fun k8 =>
      (u8_checked_add_signed n.val k8).bind new

end Note

/-! ## Note pattern blocks and the Note sound (packages/wavexp/src/sound/note.rs) -/

/-- `NoteBlock { offset: Beats, value: Note, len: Beats }`. -/
structure NoteBlock where
  offset : ℚ
  value : Note
  len : ℚ
deriving DecidableEq

/-- A command scheduled on the host audio graph.  Nodes are identified by
integer handles assigned in creation order within one `play` call. -/
inductive AudioCmd where
  | setValueAtTime (node : ℕ) (value t : ℚ)
  | linearRampToValueAtTime (node : ℕ) (value t : ℚ)
  | oscFrequency (node : ℕ) (hz : ℚ)
  | oscStart (node : ℕ) (t : ℚ)
  | oscStop (node : ℕ) (t : ℚ)
deriving DecidableEq

/-- The frequency set by an `oscFrequency` command, `none` for other commands. -/
def AudioCmd.oscFreqVal : AudioCmd → Option ℚ
  | .oscFrequency _ hz => some hz
  | _ => none

/-- `NoteSound`: pattern editor data plus envelope parameters. -/
structure NoteSound where
  pattern : List NoteBlock
  volume : ℚ
  attack : ℚ
  decay : ℚ
  sustain : ℚ
  release : ℚ
  rep_count : ℕ
deriving DecidableEq

/-- `NoteSound::play(plug, now, self_offset, bps)`: the sequence of audio-graph
commands it issues.  Per repetition and per block, one gain node and one
oscillator are created (modelled by the shared handle `rep·|pattern| + i`); the
envelope is `set(0, start)`, `ramp(volume, start+attack)`,
`ramp(sustain·volume, +decay)`, `set(sustain·volume, end−release)`,
`ramp(0, end)`; the oscillator runs from `start` to `end` at `value.freq()`.
All beat durations are divided by `bps` (`to_secs`). -/
def NoteSound.play (s : NoteSound) (now self_offset bps : ℚ) : List AudioCmd :=
  match s.pattern.getLast? with
  | none => []
  | some last =>
    let pat_len := (last.offset + last.len) / bps
    (List.range s.rep_count).flatMap fun rep =>
      s.pattern.enum.flatMap fun bi =>
        let node := rep * s.pattern.length + bi.1
        let blk := bi.2
        let start := now + self_offset + pat_len * rep + blk.offset / bps
        let a1 := start + s.attack / bps
        let a2 := a1 + s.decay / bps
        let sus := s.sustain * s.volume
        let tEnd := start + blk.len / bps
        [.setValueAtTime node 0 start,
         .linearRampToValueAtTime node s.volume a1,
         .linearRampToValueAtTime node sus a2,
         .setValueAtTime node sus (tEnd - s.release / bps),
         .linearRampToValueAtTime node 0 tEnd,
         .oscFrequency node blk.value.freq,
         .oscStart node start,
         .oscStop node tEnd]

/-! ## Audio inputs (packages/wavexp/src/sound/mod.rs, `AudioInput`) -/

/-- `AudioInputChanges { reversed, cut_start, cut_end }`. -/
structure AudioInputChanges where
  reversed : Bool
  cut_start : ℚ
  cut_end : ℚ
deriving DecidableEq

/-- `AudioInput`: buffers are modelled by their length in samples. -/
structure AudioInput where
  duration : ℚ
  raw_length : ℕ
  raw_duration : ℚ
  pending_changes : AudioInputChanges
  baked_changes : AudioInputChanges
  baked_buf : ℕ
deriving DecidableEq

namespace AudioInput

/-- `AudioInput::baked_duration()`. -/
def baked_duration (a : AudioInput) : ℚ := a.duration

/-- `AudioInput::baked()`: the baked buffer, `Some` iff no changes are pending. -/
def baked (a : AudioInput) : Option ℕ :=
  if a.pending_changes = a.baked_changes then some a.baked_buf else none

/-- `AudioInput::bake(bps)`.  `sample_rate` abstracts `Sequencer::SAMPLE_RATE`;
`failAt` names the first fallible host call that fails (`some 0` =
`AudioBuffer::new`, `some 1` = a channel copy, `none` = all succeed); the
result pairs the state after the call with its success.  The `u32`
subtraction computing the new length is modelled as truncated `ℕ`
subtraction; the `as usize` casts truncate and saturate at zero. -/
def bake (sample_rate : ℚ) (failAt : Option ℕ) (bps : ℚ) (a : AudioInput) :
    AudioInput × Bool :=
  if a.pending_changes = a.baked_changes then (a, true)
  else
    let cut_start := (⌊a.pending_changes.cut_start / bps * sample_rate⌋).toNat
    let cut_end := (⌊a.pending_changes.cut_end / bps * sample_rate⌋).toNat
    let length := a.raw_length - cut_start - cut_end
    if failAt = some 0 then (a, false)
    else
      let a1 := { a with baked_buf := length, duration := (length : ℚ) / sample_rate }
      if failAt = some 1 then (a1, false)
      else ({ a1 with baked_changes := a.pending_changes }, true)

end AudioInput

/-! ## Custom sounds (packages/wavexp/src/sound/custom.rs) -/

/-- `CustomBlock { offset: R64, pitch: Note }`. -/
structure CustomBlock where
  offset : ℚ
  pitch : Note
deriving DecidableEq

/-- `CustomSound` (the fields its `len` reads, plus the rest of its record). -/
structure CustomSound where
  pattern : List CustomBlock
  src : Option AudioInput
  volume : ℚ
  attack : ℚ
  decay : ℚ
  sustain : ℚ
  release : ℚ
  rep_count : ℕ
  speed : ℚ

/-- `CustomSound::len(bps)`:
`src.baked_duration().secs_to_beats(bps) / speed / last.pitch.pitch_coef() + last.offset`
when both a last pattern block and an input are present, otherwise `0`. -/
def CustomSound.len (exp2 : ℚ → ℚ) (s : CustomSound) (bps : ℚ) : ℚ :=
  match s.pattern.getLast?, s.src with
  | some block, some src =>
      src.baked_duration * bps / s.speed / (block.pitch.pitch_coef exp2) + block.offset
  | _, _ => 0

/-- Modelled from the spec sentence for the pattern length of a Custom sound:
`baked_duration_in_beats / speed / last.pitch.pitch_coef() + last.offset` if a
last block exists and an input is present, else `0`, with
`pitch_coef(n) = 2^((n − MID)/12)` written out (`MID = 18`). -/
def CustomSound.len_spec (exp2 : ℚ → ℚ) (s : CustomSound) (bps : ℚ) : ℚ :=
  match s.pattern.getLast?, s.src with
  | some last, some src =>
      (src.baked_duration * bps) / s.speed / exp2 (((last.pitch.val : ℚ) - 18) / 12)
        + last.offset
  | _, _ => 0

/-! ## Sound events and the sequencer (src/src/sound.rs) -/

/-- `SoundEvent`: all variants carry the target block id and the beat time
`when`; `BlockEnd` additionally carries the gain node to tear down (an integer
handle here). -/
inductive SoundEvent where
  | blockStart (id : ℕ) (when : ℚ) (state : ℕ)
  | blockEnd (id : ℕ) (when : ℚ) (block : ℕ)
  | start (id : ℕ) (when : ℚ)
  | stop (id : ℕ) (when : ℚ)
deriving DecidableEq

namespace SoundEvent

/-- `SoundEvent::target()`. -/
def target : SoundEvent → ℕ
  | .blockStart id _ _ => id
  | .blockEnd id _ _ => id
  | .start id _ => id
  | .stop id _ => id

/-- `SoundEvent::when()`. -/
def when : SoundEvent → ℚ
  | .blockStart _ w _ => w
  | .blockEnd _ w _ => w
  | .start _ w => w
  | .stop _ w => w

/-- `impl Ord for SoundEvent`: `self.when().cmp(&other.when())`. -/
def cmp (a b : SoundEvent) : Ordering := ordCmp a.when b.when

/-- Whether the event is a `BlockStart`. -/
def isBlockStart : SoundEvent → Bool
  | .blockStart _ _ _ => true
  | _ => false

/-- Whether the event is a `BlockEnd`. -/
def isBlockEnd : SoundEvent → Bool
  | .blockEnd _ _ _ => true
  | _ => false

end SoundEvent

/-- The master plug: a dynamics compressor node, with the parameters the
sequencer sets on it and whether it is connected into the master gain chain.
`id` is the node handle distinguishing distinct created nodes. -/
structure Plug where
  id : ℕ
  ratioVal : ℚ
  releaseVal : ℚ
  connected : Bool
deriving DecidableEq

/-- The sequencer state the settled claims touch. -/
structure Sequencer where
  pending : List SoundEvent
  plug : Plug
  playing : Bool
  used_to_play : Bool
deriving DecidableEq

namespace Sequencer

/-- The `AppEvent::StopPlay` arm of `Sequencer::handle_event`: clear `pending`,
disconnect the plug, replace it by a freshly created compressor (ratio 20,
release 1) connected to the master gain, and clear both flags.  Returns the new
sequencer state and the old plug as it is left behind. -/
def handleStopPlay (s : Sequencer) : Sequencer × Plug :=
  ({ pending := [],
     plug := { id := s.plug.id + 1, ratioVal := 20, releaseVal := 1, connected := true },
     playing := false,
     used_to_play := false },
   { s.plug with connected := false })

end Sequencer

/-- `now_beats` of the `AppEvent::Frame` arm: `(ctx.now − ctx.play_since) · bps`
when the sequencer already played on an earlier frame, `0` on the first frame
after `StartPlay` (where `play_since` is set to `ctx.now`). -/
def nowBeats (used_to_play : Bool) (now play_since bps : ℚ) : ℚ :=
  if used_to_play then (now - play_since) * bps else 0

/-- `self.pending.iter().position(|x| x.when() > now).unwrap_or(self.pending.len())`. -/
def nDue (pending : List SoundEvent) (now : ℚ) : ℕ :=
  pending.findIdx fun e => decide (now < e.when)

/-- The prefix `self.pending.drain(..n_due)` removes and hands to `poll`. -/
def frameDrained (pending : List SoundEvent) (now : ℚ) : List SoundEvent :=
  pending.take (nDue pending now)

/-- What `drain(..n_due)` leaves in the pending queue. -/
def frameRemaining (pending : List SoundEvent) (now : ℚ) : List SoundEvent :=
  pending.drop (nDue pending now)

/-- The `Sound::Note` arm of `Sound::poll` (src/src/sound.rs): on
`BlockStart{id, when, state}` it reads `pattern[state]`, schedules the
envelope, and enqueues `BlockEnd{id, when + len + release + 0.1s·bps, block}`
followed, when `pattern[state+1]` exists, by
`BlockStart{id, when + next.offset − cur.offset, state+1}`.  The gain node
created for the block is modelled by the handle `state`.  `BlockEnd` only
disconnects its node; other events are an error.  The out-of-bounds
`get_unchecked` read is modelled as returning no events. -/
def pollNote (pattern : List NoteBlock) (release bps : ℚ) :
    SoundEvent → List SoundEvent
  | .blockStart id w state =>
    match pattern[state]? with
    | some cur =>
      .blockEnd id (w + cur.len + release + 1 / 10 * bps) state ::
        (match pattern[state + 1]? with
         | some next => [.blockStart id (w + next.offset - cur.offset) (state + 1)]
         | none => [])
    | none => []
  | _ => []

/-- The `Sound::Note` arm of `Sound::reset` (src/src/sound.rs):
`BlockStart{id: self_id, state: 0, when: self_offset + pattern.first_unchecked().offset}`.
The unchecked first-element read is modelled by `head?`: `none` stands for the
out-of-bounds access on an empty pattern. -/
def resetNote (pattern : List NoteBlock) (self_id : ℕ) (self_offset : ℚ) :
    Option SoundEvent :=
  pattern.head?.map fun first => .blockStart self_id (self_offset + first.offset) 0

/-! ## `VecExt::push_sorted` (packages/wavexp-utils/src/lib.rs)

`slice::binary_search` is the standard two-pointer loop: while `left < right`,
probe `mid = left + (right − left)/2` and compare `self[mid]` with the value;
`push_sorted` inserts at the returned index (found or not). -/

/-- The loop of `slice::binary_search_by` with `f = |p| p.cmp(&v)`.  Out of
range probes (never reached when `right ≤ l.length`) default to `v`. -/
def bsLoop {α : Type} [LinearOrder α] (l : List α) (v : α) (left right : ℕ) : ℕ :=
  if _h : left < right then
    let mid := left + (right - left) / 2
    match ordCmp (l.getD mid v) v with
    | .lt => bsLoop l v (mid + 1) right
    | .gt => bsLoop l v left mid
    | .eq => mid
  else left
termination_by right - left
decreasing_by all_goals omega

/-- `slice::binary_search(&v)` with `Ok`/`Err` merged by `unwrap_or_else(|x| x)`. -/
def binary_search {α : Type} [LinearOrder α] (l : List α) (v : α) : ℕ :=
  bsLoop l v 0 l.length

/-- `VecExt::push_sorted`: insert at the index binary search returns, and
return that index. -/
def push_sorted {α : Type} [LinearOrder α] (l : List α) (v : α) : List α × ℕ :=
  (l.insertIdx (binary_search l v) v, binary_search l v)

/-! ## Helper lemmas -/

/-- Characterisation of `ordCmp` returning `lt`. -/
theorem ordCmp_eq_lt {α : Type} [LinearOrder α] {a b : α} :
    ordCmp a b = .lt ↔ a < b := by
  unfold ordCmp; split_ifs <;> simp_all

/-- Characterisation of `ordCmp` returning `eq`. -/
theorem ordCmp_eq_eq {α : Type} [LinearOrder α] {a b : α} :
    ordCmp a b = .eq ↔ a = b := by
  unfold ordCmp; split_ifs with h1 h2 <;> simp_all
  · exact ne_of_lt h1
  · exact ne_of_gt h2
  · exact le_antisymm h2 h1

/-- Characterisation of `ordCmp` returning `gt`. -/
theorem ordCmp_eq_gt {α : Type} [LinearOrder α] {a b : α} :
    ordCmp a b = .gt ↔ b < a := by
  unfold ordCmp; split_ifs <;> simp_all
  exact le_of_lt ‹_›

/-- In a `≤`-sorted list, `getD` is monotone in the index (within bounds). -/
theorem pairwise_getD_le {α : Type} [LinearOrder α] {l : List α}
    (hs : l.Pairwise (· ≤ ·)) (d : α) {i j : ℕ} (hij : i ≤ j) (hj : j < l.length) :
    l.getD i d ≤ l.getD j d := by
  rcases eq_or_lt_of_le hij with rfl | hlt
  · exact le_refl _
  · rw [List.getD_eq_getElem l d (lt_trans hlt hj), List.getD_eq_getElem l d hj]
    exact List.pairwise_iff_getElem.mp hs i j (lt_trans hlt hj) hj hlt

/-- Invariant of the binary-search loop on a sorted list: the returned index
lies in `[left, right]`, everything strictly below it is `≤ v` and everything
from it on is `≥ v` (given the entry invariants on `left` and `right`). -/
theorem bsLoop_spec {α : Type} [LinearOrder α] (l : List α) (v : α)
    (hs : l.Pairwise (· ≤ ·)) :
    ∀ (fuel left right : ℕ), right - left ≤ fuel → left ≤ right → right ≤ l.length →
    (∀ j, j < left → l.getD j v < v) →
    (∀ j, right ≤ j → j < l.length → v < l.getD j v) →
    (left ≤ bsLoop l v left right ∧ bsLoop l v left right ≤ right) ∧
    (∀ j, j < bsLoop l v left right → l.getD j v ≤ v) ∧
    (∀ j, bsLoop l v left right ≤ j → j < l.length → v ≤ l.getD j v) := by
  intro fuel
  induction fuel with
  | zero =>
    intro left right hfuel hlr hrlen hleft hright
    have heq : left = right := by omega
    subst heq
    rw [bsLoop, dif_neg (by omega)]
    exact ⟨⟨le_refl _, le_refl _⟩,
      fun j hj => le_of_lt (hleft j hj),
      fun j hj hjl => le_of_lt (hright j hj hjl)⟩
  | succ fuel ih =>
    intro left right hfuel hlr hrlen hleft hright
    by_cases hlt : left < right
    · rw [bsLoop, dif_pos hlt]
      simp only
      set mid := left + (right - left) / 2 with hmid
      have hmlt : mid < right := by omega
      have hmlen : mid < l.length := by omega
      have hmge : left ≤ mid := by omega
      rcases hcmp : ordCmp (l.getD mid v) v with _ | _ | _
      · have hv : l.getD mid v < v := ordCmp_eq_lt.mp hcmp
        have hrec := ih (mid + 1) right (by omega) (by omega) hrlen
          (fun j hj => lt_of_le_of_lt (pairwise_getD_le hs v (by omega : j ≤ mid) hmlen) hv)
          hright
        exact ⟨⟨le_trans (by omega) hrec.1.1, hrec.1.2⟩, hrec.2.1, hrec.2.2⟩
      · have hv : l.getD mid v = v := ordCmp_eq_eq.mp hcmp
        refine ⟨⟨hmge, le_of_lt hmlt⟩, ?_, ?_⟩
        · intro j hj
          have hj2 : j < mid := hj
          exact le_of_le_of_eq (pairwise_getD_le hs v (by omega) hmlen) hv
        · intro j hj hjl
          have hj2 : mid ≤ j := hj
          exact hv.symm.le.trans (pairwise_getD_le hs v hj2 hjl)
      · have hv : v < l.getD mid v := ordCmp_eq_gt.mp hcmp
        have hrec := ih left mid (by omega) (by omega) (by omega) hleft
          (fun j hj hjl => lt_of_lt_of_le hv (pairwise_getD_le hs v hj hjl))
        exact ⟨⟨hrec.1.1, le_trans hrec.1.2 (le_of_lt hmlt)⟩, hrec.2.1, hrec.2.2⟩
    · rw [bsLoop, dif_neg hlt]
      have heq : left = right := by omega
      subst heq
      exact ⟨⟨le_refl _, le_refl _⟩,
        fun j hj => le_of_lt (hleft j hj),
        fun j hj hjl => le_of_lt (hright j hj hjl)⟩

/-- `insertIdx i v` is `take i`, then `v`, then `drop i` (for `i` in range). -/
theorem insertIdx_eq_take_cons_drop {α : Type} (v : α) :
    ∀ (i : ℕ) (l : List α), i ≤ l.length →
      l.insertIdx i v = l.take i ++ v :: l.drop i := by
  intro i
  induction i with
  | zero => intro l _; simp
  | succ i ih =>
    intro l hl
    cases l with
    | nil => simp at hl
    | cons a t =>
      simp only [List.insertIdx_succ_cons, List.take_succ_cons, List.drop_succ_cons,
        List.cons_append, List.cons.injEq, true_and]
      exact ih t (by simpa using hl)

/-- Inserting `v` at an index that splits a sorted list into a `≤ v` prefix and
a `≥ v` suffix keeps the list sorted. -/
theorem pairwise_insertIdx {α : Type} [LinearOrder α] (v : α) :
    ∀ (i : ℕ) (l : List α), i ≤ l.length → l.Pairwise (· ≤ ·) →
      (∀ j, j < i → l.getD j v ≤ v) →
      (∀ j, i ≤ j → j < l.length → v ≤ l.getD j v) →
      (l.insertIdx i v).Pairwise (· ≤ ·) := by
  intro i
  induction i with
  | zero =>
    intro l hl hs _ hupper
    rw [List.insertIdx_zero, List.pairwise_cons]
    refine ⟨?_, hs⟩
    intro b hb
    obtain ⟨j, hj, rfl⟩ := List.mem_iff_getElem.mp hb
    rw [← List.getD_eq_getElem l v hj]
    exact hupper j (Nat.zero_le j) hj
  | succ i ih =>
    intro l hl hs hlower hupper
    cases l with
    | nil => simp at hl
    | cons a t =>
      rw [List.pairwise_cons] at hs
      rw [List.insertIdx_succ_cons, List.pairwise_cons]
      constructor
      · intro b hb
        rcases List.mem_insertIdx (by simpa using hl) |>.mp hb with rfl | hbt
        · simpa using hlower 0 (Nat.succ_pos i)
        · exact hs.1 b hbt
      · refine ih t (by simpa using hl) hs.2 ?_ ?_
        · intro j hj
          simpa using hlower (j + 1) (by omega)
        · intro j hj hjl
          simpa using hupper (j + 1) (by omega) (by simpa using hjl)

/-- Membership in the drained prefix of a sorted pending queue is exactly
membership in the queue with `when ≤ now`. -/
theorem mem_frameDrained_iff (pending : List SoundEvent) (now : ℚ)
    (hs : pending.Pairwise fun a b => a.when ≤ b.when) (e : SoundEvent) :
    e ∈ frameDrained pending now ↔ e ∈ pending ∧ e.when ≤ now := by
  induction pending with
  | nil => simp [frameDrained, nDue]
  | cons a t ih =>
    rw [List.pairwise_cons] at hs
    unfold frameDrained nDue at ih ⊢
    rw [List.findIdx_cons]
    by_cases h : now < a.when
    · simp only [h, decide_True, cond_true, List.take_zero, List.not_mem_nil, false_iff,
        not_and, List.mem_cons]
      rintro (rfl | he)
      · exact fun hc => absurd h (not_lt.mpr hc)
      · exact fun hc => absurd h (not_lt.mpr (le_trans (hs.1 e he) hc))
    · simp only [h, decide_False, cond_false, List.take_succ_cons, List.mem_cons]
      constructor
      · rintro (rfl | hd)
        · exact ⟨Or.inl rfl, not_lt.mp h⟩
        · have := (ih hs.2).mp hd
          exact ⟨Or.inr this.1, this.2⟩
      · rintro ⟨rfl | hm, hw⟩
        · exact Or.inl rfl
        · exact Or.inr ((ih hs.2).mpr ⟨hm, hw⟩)

/-! ## Claim theorems -/

/-- Claim C1: for a playing sequencer handling a `Frame` event at clock time
`t`, the events removed from the pending queue (and handed to `poll`) are
exactly the pending events with `when ≤ (t − play_since)·bps`, where
`now_beats` is `0` on the first frame after `StartPlay`, assuming `pending` is
sorted ascending by `when`. -/
theorem frame_drain_exact (pending : List SoundEvent) (u : Bool)
    (t play_since bps : ℚ)
    (hs : pending.Pairwise fun a b => a.when ≤ b.when) :
    frameDrained pending (nowBeats u t play_since bps) ++
      frameRemaining pending (nowBeats u t play_since bps) = pending ∧
    ∀ e, e ∈ frameDrained pending (nowBeats u t play_since bps) ↔
      e ∈ pending ∧ e.when ≤ nowBeats u t play_since bps :=
  ⟨List.take_append_drop _ _, fun e => mem_frameDrained_iff pending _ hs e⟩

/-- Witness for claim C1 at a concrete queue: with `pending = [Start 0 @1,
Start 1 @3]`, `used_to_play`, `t = 2`, `play_since = 0`, `bps = 1`. -/
theorem frame_drain_exact_witness :
    frameDrained [.start 0 1, .start 1 3] (nowBeats true 2 0 1) ++
      frameRemaining [.start 0 1, .start 1 3] (nowBeats true 2 0 1) =
      [SoundEvent.start 0 1, .start 1 3] ∧
    ∀ e, e ∈ frameDrained [.start 0 1, .start 1 3] (nowBeats true 2 0 1) ↔
      e ∈ [SoundEvent.start 0 1, .start 1 3] ∧ e.when ≤ nowBeats true 2 0 1 :=
  frame_drain_exact [.start 0 1, .start 1 3] true 2 0 1 (by decide)

/-- Claim C2: on a `BlockStart{id, when, state}` for a `Note` sound with
`state` in range, `poll` enqueues exactly one `BlockEnd` for that block, it is
enqueued first (before the at-most-one next `BlockStart`), and every
`BlockStart` it enqueues targets the same block at pattern state `state+1`. -/
theorem pollNote_blockStart_schedule (pattern : List NoteBlock) (release bps : ℚ)
    (id : ℕ) (w : ℚ) (state : ℕ) (h : state < pattern.length) :
    (pollNote pattern release bps (.blockStart id w state)).countP
        (fun e => e.isBlockEnd) = 1 ∧
    (pollNote pattern release bps (.blockStart id w state)).countP
        (fun e => e.isBlockStart) ≤ 1 ∧
    (pollNote pattern release bps (.blockStart id w state)).head? =
      some (.blockEnd id
        (w + (pattern.get ⟨state, h⟩).len + release + 1 / 10 * bps) state) ∧
    ∀ e ∈ pollNote pattern release bps (.blockStart id w state),
      e.isBlockStart = true → ∃ w2, e = .blockStart id w2 (state + 1) := by
  have hcur : pattern[state]? = some (pattern.get ⟨state, h⟩) := by
    rw [List.getElem?_eq_getElem h]
    simp
  simp only [pollNote]
  rw [hcur]
  rcases hnext : pattern[state + 1]? with _ | next
  · refine ⟨?_, ?_, ?_, ?_⟩
    · simp [List.countP_cons, SoundEvent.isBlockEnd]
    · simp [List.countP_cons, SoundEvent.isBlockStart]
    · simp
    · intro e he hbs
      simp at he
      subst he
      simp [SoundEvent.isBlockStart] at hbs
  · refine ⟨?_, ?_, ?_, ?_⟩
    · simp [List.countP_cons, SoundEvent.isBlockEnd, SoundEvent.isBlockStart]
    · simp [List.countP_cons, SoundEvent.isBlockEnd, SoundEvent.isBlockStart]
    · simp
    · intro e he hbs
      simp at he
      rcases he with rfl | rfl
      · simp [SoundEvent.isBlockStart] at hbs
      · exact ⟨_, rfl⟩

/-- Witness for claim C2 on a two-block pattern at state 0. -/
theorem pollNote_blockStart_schedule_witness :
    (pollNote [{ offset := 0, value := Note.MID, len := 1 },
               { offset := 1, value := Note.MID, len := 1 }] 0 2
        (.blockStart 7 5 0)).countP (fun e => e.isBlockEnd) = 1 ∧
    (pollNote [{ offset := 0, value := Note.MID, len := 1 },
               { offset := 1, value := Note.MID, len := 1 }] 0 2
        (.blockStart 7 5 0)).countP (fun e => e.isBlockStart) ≤ 1 :=
  have hmain := pollNote_blockStart_schedule
    [{ offset := 0, value := Note.MID, len := 1 },
     { offset := 1, value := Note.MID, len := 1 }] 0 2 7 5 0 (by decide)
  ⟨hmain.1, hmain.2.1⟩

/-- Claim C3: handling `StopPlay` clears the pending queue, disconnects the
old master plug and replaces it by a newly built compressor (ratio 20,
release 1) connected into the gain chain, and clears both the `playing` and
`used_to_play` flags. -/
theorem sequencer_stopPlay (s : Sequencer) :
    (s.handleStopPlay).1.pending = [] ∧
    (s.handleStopPlay).1.plug.id ≠ s.plug.id ∧
    (s.handleStopPlay).1.plug.connected = true ∧
    (s.handleStopPlay).1.plug.ratioVal = 20 ∧
    (s.handleStopPlay).1.plug.releaseVal = 1 ∧
    (s.handleStopPlay).2.connected = false ∧
    (s.handleStopPlay).1.playing = false ∧
    (s.handleStopPlay).1.used_to_play = false := by
  unfold Sequencer.handleStopPlay
  refine ⟨rfl, ?_, rfl, rfl, rfl, rfl, rfl, rfl⟩
  simp

/-- Counterexample to claim C4 as stated: two events with equal `when` but
different target ids compare as equal, so ties are not broken by target id. -/
theorem soundEvent_cmp_ignores_id :
    SoundEvent.cmp (.start 0 5) (.start 1 5) = .eq ∧
    (SoundEvent.start 0 5).target ≠ (SoundEvent.start 1 5).target := by
  constructor
  · simp [SoundEvent.cmp, SoundEvent.when, ordCmp]
  · simp [SoundEvent.target]

/-- Claim C4 (amended): the pending queue is ordered by the `when` field
alone; two events compare equal exactly when their `when` fields are equal,
regardless of target id. -/
theorem soundEvent_cmp_by_when (a b : SoundEvent) :
    (SoundEvent.cmp a b = .lt ↔ a.when < b.when) ∧
    (SoundEvent.cmp a b = .eq ↔ a.when = b.when) ∧
    (SoundEvent.cmp a b = .gt ↔ b.when < a.when) :=
  ⟨ordCmp_eq_lt, ordCmp_eq_eq, ordCmp_eq_gt⟩

/-- Counterexample to claim C5 as stated: for the single-block `MID` pattern
at bps 2, the only oscillator frequency `play` schedules is 185.00 Hz
(`FREQS[18]`, F#3), not 261.63 Hz. -/
theorem noteSound_play_no_26163 :
    ((NoteSound.play
        { pattern := [{ offset := 0, value := Note.MID, len := 1 }],
          volume := 1, attack := 0, decay := 0, sustain := 1, release := 0,
          rep_count := 1 }
        10 0 2).filterMap AudioCmd.oscFreqVal = [185]) ∧
    (185 : ℚ) ≠ 261.63 := by
  constructor
  · simp [NoteSound.play, Note.freq, Note.FREQS, Note.MID,
      show List.range 1 = [0] from rfl, AudioCmd.oscFreqVal]
    norm_num
  · norm_num

/-- Claim C5 (amended): for `NoteBlock{offset: 0, len: 1, value: MID}`,
`bps = 2`, volume 1, attack = decay = release = 0, sustain 1, one repetition,
`play` at `t = 10`s schedules the gain automation `set 0 @10`, `ramp to 1
@10`, `ramp to 1 @10`, `set 1 @10.5`, `ramp to 0 @10.5`, and an oscillator at
185.00 Hz (`Note::MID`, F#3) starting at 10 and stopping at 10.5. -/
theorem noteSound_play_example :
    NoteSound.play
        { pattern := [{ offset := 0, value := Note.MID, len := 1 }],
          volume := 1, attack := 0, decay := 0, sustain := 1, release := 0,
          rep_count := 1 }
        10 0 2 =
      [.setValueAtTime 0 0 10,
       .linearRampToValueAtTime 0 1 10,
       .linearRampToValueAtTime 0 1 10,
       .setValueAtTime 0 1 (21 / 2),
       .linearRampToValueAtTime 0 0 (21 / 2),
       .oscFrequency 0 185,
       .oscStart 0 10,
       .oscStop 0 (21 / 2)] := by
  simp [NoteSound.play, Note.freq, Note.FREQS, Note.MID,
    show List.range 1 = [0] from rfl]
  norm_num

/-- Claim C6: `Note::new(i)` is defined iff `i ≤ 35`; checked `Note + k` and
`Note − k` (`isize` instances) are defined iff the exact result stays in
`0..=35`, returning none on any range escape; and `recip` is an involution. -/
theorem note_arith_range (i : ℕ) (n : Note) (k : ℤ) :
    ((Note.new i).isSome ↔ i ≤ 35) ∧
    ((n.add k).isSome ↔ 0 ≤ (n.val : ℤ) + k ∧ (n.val : ℤ) + k ≤ 35) ∧
    ((n.sub k).isSome ↔ 0 ≤ (n.val : ℤ) - k ∧ (n.val : ℤ) - k ≤ 35) ∧
    n.recip.recip = n := by
  have hn := n.2
  refine ⟨?_, ?_, ?_, ?_⟩
  · unfold Note.new; split <;> simp_all
  · unfold Note.add i8_try_from u8_checked_add_signed Note.new
    by_cases h1 : -128 ≤ k ∧ k ≤ 127
    · rw [if_pos h1, Option.some_bind]
      by_cases h2 : 0 ≤ (n.val : ℤ) + k ∧ (n.val : ℤ) + k ≤ 255
      · rw [if_pos h2, Option.some_bind]
        by_cases h3 : ((n.val : ℤ) + k).toNat ≤ 35
        · rw [dif_pos h3]; simp; omega
        · rw [dif_neg h3]; simp; omega
      · rw [if_neg h2, Option.none_bind]; simp; omega
    · rw [if_neg h1, Option.none_bind]; simp; omega
  · unfold Note.sub isize_checked_neg i8_try_from u8_checked_add_signed Note.new
    by_cases h0 : k = -(2 ^ 63)
    · rw [if_pos h0, Option.none_bind]; simp; omega
    · rw [if_neg h0, Option.some_bind]
      by_cases h1 : -128 ≤ -k ∧ -k ≤ 127
      · rw [if_pos h1, Option.some_bind]
        by_cases h2 : 0 ≤ (n.val : ℤ) + -k ∧ (n.val : ℤ) + -k ≤ 255
        · rw [if_pos h2, Option.some_bind]
          by_cases h3 : ((n.val : ℤ) + -k).toNat ≤ 35
          · rw [dif_pos h3]; simp; omega
          · rw [dif_neg h3]; simp; omega
        · rw [if_neg h2, Option.none_bind]; simp; omega
      · rw [if_neg h1, Option.none_bind]; simp; omega
  · unfold Note.recip
    exact Subtype.ext (by simp; omega)

/-- Claim C7: the pattern length a Custom sound reports equals
`baked_duration_in_beats / speed / last.pitch.pitch_coef() + last.offset` when
a last pattern block and an audio input are present and `0` otherwise, with
`pitch_coef(n) = 2^((n − MID)/12)` (here `exp2` abstracts the host `2^·`). -/
theorem customSound_len_eq_spec (exp2 : ℚ → ℚ) (s : CustomSound) (bps : ℚ) :
    CustomSound.len exp2 s bps = CustomSound.len_spec exp2 s bps := by
  unfold CustomSound.len CustomSound.len_spec Note.pitch_coef
  rcases s.pattern.getLast? with _ | blk <;> rcases s.src with _ | src <;> rfl

/-- Claim C8: `baked()` returns the baked buffer iff `pending_changes =
baked_changes`; `bake` is a no-op when they already agree, on success it makes
`baked_changes` equal `pending_changes`, and on failure the input stays
unbaked, so `baked()` returns none. -/
theorem audioInput_bake_baked (sr : ℚ) (failAt : Option ℕ) (bps : ℚ)
    (a : AudioInput) :
    (a.baked.isSome ↔ a.pending_changes = a.baked_changes) ∧
    (a.pending_changes = a.baked_changes → a.bake sr failAt bps = (a, true)) ∧
    ((a.bake sr failAt bps).2 = true →
      (a.bake sr failAt bps).1.baked_changes =
        (a.bake sr failAt bps).1.pending_changes) ∧
    ((a.bake sr failAt bps).2 = false → (a.bake sr failAt bps).1.baked = none) := by
  unfold AudioInput.bake AudioInput.baked
  refine ⟨?_, ?_, ?_, ?_⟩
  · split_ifs <;> simp_all
  · intro h; rw [if_pos h]
  · by_cases h : a.pending_changes = a.baked_changes
    · rw [if_pos h]; intro; simpa using h.symm
    · rw [if_neg h]
      split_ifs <;> simp_all
  · by_cases h : a.pending_changes = a.baked_changes
    · rw [if_pos h]; simp
    · rw [if_neg h]
      split_ifs <;> simp_all

/-- Claim C9: on a sorted list, `push_sorted` returns an in-range index, the
new list is the old one with the value inserted exactly at that index, it is
still sorted, and it holds exactly the old elements plus the new value. -/
theorem push_sorted_spec {α : Type} [LinearOrder α] (l : List α) (v : α)
    (hs : l.Pairwise (· ≤ ·)) :
    (push_sorted l v).2 ≤ l.length ∧
    (push_sorted l v).1 =
      l.take (push_sorted l v).2 ++ v :: l.drop (push_sorted l v).2 ∧
    (push_sorted l v).1.Pairwise (· ≤ ·) ∧
    (push_sorted l v).1.Perm (v :: l) := by
  have hspec := bsLoop_spec l v hs l.length 0 l.length (by omega) (by omega)
    (le_refl _) (by omega) (fun j hj hjl => absurd hj (by omega))
  have hle : binary_search l v ≤ l.length := hspec.1.2
  refine ⟨hle, ?_, ?_, ?_⟩
  · exact insertIdx_eq_take_cons_drop v (binary_search l v) l hle
  · exact pairwise_insertIdx v (binary_search l v) l hle hs hspec.2.1 hspec.2.2
  · exact List.perm_insertIdx v l hle

/-- Witness for claim C9 on the sorted rational list `[1, 3, 5, 7]` with new
value `4`. -/
theorem push_sorted_witness :
    (push_sorted [1, 3, 5, 7] (4 : ℚ)).2 ≤ ([1, 3, 5, 7] : List ℚ).length ∧
    (push_sorted [1, 3, 5, 7] (4 : ℚ)).1 =
      ([1, 3, 5, 7] : List ℚ).take (push_sorted [1, 3, 5, 7] (4 : ℚ)).2 ++
        (4 : ℚ) :: ([1, 3, 5, 7] : List ℚ).drop (push_sorted [1, 3, 5, 7] (4 : ℚ)).2 ∧
    (push_sorted [1, 3, 5, 7] (4 : ℚ)).1.Pairwise (· ≤ ·) ∧
    (push_sorted [1, 3, 5, 7] (4 : ℚ)).1.Perm ((4 : ℚ) :: [1, 3, 5, 7]) :=
  push_sorted_spec [1, 3, 5, 7] (4 : ℚ) (by decide)

/-- Claim C10: the `StartPlay` reset of a `Note` sound reads the pattern's
first element without a bounds check, so it is defined exactly when the
pattern is non-empty, and then it enqueues `BlockStart{state: 0}` at
`self_offset + first.offset`. -/
theorem resetNote_spec (pattern : List NoteBlock) (id : ℕ) (off : ℚ) :
    ((resetNote pattern id off).isSome ↔ pattern ≠ []) ∧
    (∀ first rest, pattern = first :: rest →
      resetNote pattern id off = some (.blockStart id (off + first.offset) 0)) := by
  cases pattern <;> simp [resetNote]

end Wavexp
